import Mathlib

/-!
Verification of the rule-expression engine of the `validator` Go package:
a shallow embedding of its lexer (`lexer.go`), recursive-descent parser and
evaluator (`parse.go`), error aggregation (`error.go`), struct traversal
(`parse.go`) and the built-in `Required`/`Empty` rules, together with
theorems checking the specified behaviour against that embedding.

Conventions of the embedding:
* Go strings are modelled as `List Char`; all inputs considered are ASCII,
  so Go's byte indexing coincides with character indexing.
* Go's `rune(-1)` end-of-input marker is modelled with `Option Char`.
* `unicode.IsSpace` / `unicode.IsLetter` / `unicode.IsDigit` are modelled on
  the ASCII (plus Latin-1 space) fragment exercised by rule texts.
* Mutation of the lexer is modelled by explicit state passing; every
  function returns its updated `Lexer`.
* A Go `*node` pointer is the inductive `Node`, whose `nil` constructor is
  the nil pointer; dereferencing nil and calling a nil function value are
  modelled as a Go runtime panic. Other nilable values use `Option`.
* Character-level scanning loops recurse on `gas`, supplied by their wrapper
  as exactly the number of unscanned characters (plus one where the loop can
  look at end-of-input), so that the `0` case coincides with the loop's own
  exit; parser and traversal loops recurse on an explicit fuel parameter,
  whose exhaustion is a distinct error that the generous wrappers and
  theorem hypotheses never reach.
-/

namespace Validator

/-- tokenType of token.go: the kind of lexical unit emitted by the lexer. -/
inductive TokenType where
  | typeError
  | typeEOF
  | typeAnd
  | typeOr
  | typeFunction
  | typeColon
  | typeComma
  | typeOpenParen
  | typeCloseParen
  | typeBool
  | typeNumber
  | typeString
  | typeSpace
deriving DecidableEq, Repr

/-- token of token.go: a kind together with the exact slice of input spanned. -/
structure Token where
  typ : TokenType
  val : String
deriving DecidableEq, Repr

/-- lexer of lexer.go. `parenStack` is a Go `int`, so it is an `Int` here
(`Backup` can in principle drive it below zero). -/
structure Lexer where
  buffer : List Char
  start : Nat
  pos : Nat
  len : Nat
  parenStack : Int
deriving Repr

/-- newLexer of lexer.go. -/
def newLexer (s : String) : Lexer :=
  { buffer := s.data, start := 0, pos := 0, len := s.data.length, parenStack := 0 }

/-- hasNext of lexer.go. -/
def Lexer.hasNext (l : Lexer) : Bool :=
  l.pos < l.len

/-- next (rune level) of lexer.go: `none` models the `eof` rune. -/
def Lexer.nextr (l : Lexer) : Option Char × Lexer :=
  if l.hasNext then
    (l.buffer[l.pos]?, { l with pos := l.pos + 1 })
  else
    (none, l)

/-- backup (rune level) of lexer.go; its `bool` result is ignored by callers. -/
def Lexer.backupr (l : Lexer) : Lexer :=
  if l.pos = 0 then l else { l with pos := l.pos - 1 }

/-- peak (rune level) of lexer.go: next followed by backup, leaving the state
unchanged. -/
def Lexer.peakr (l : Lexer) : Option Char :=
  if l.hasNext then l.buffer[l.pos]? else none

/-- accept of lexer.go: consume one character of `valid`, mirroring the
single short-circuit condition `l.hasNext() && strings.ContainsRune(...)`. -/
def Lexer.accept (l : Lexer) (valid : List Char) : Bool × Lexer :=
  if l.hasNext && ((l.buffer[l.pos]?).map valid.contains).getD false then
    (true, { l with pos := l.pos + 1 })
  else
    (false, l)

/-- Loop of acceptRun of lexer.go: consume characters of `valid` while
`hasNext`, reporting whether anything was consumed. `gas` is the number of
unscanned characters, so the `0` case coincides with the loop's `hasNext`
exit. -/
def Lexer.acceptRunGas (valid : List Char) : Nat → Lexer → Bool → Bool × Lexer
  | 0, l, acc => (acc, l)
  | gas + 1, l, acc =>
      if l.hasNext && ((l.buffer[l.pos]?).map valid.contains).getD false then
        Lexer.acceptRunGas valid gas { l with pos := l.pos + 1 } true
      else
        (acc, l)

/-- acceptRun of lexer.go. -/
def Lexer.acceptRun (l : Lexer) (valid : List Char) : Bool × Lexer :=
  Lexer.acceptRunGas valid (l.len - l.pos) l false

/-- acceptPrefix of lexer.go: consume `valid` exactly when it is the next text. -/
def Lexer.acceptPrefix (l : Lexer) (valid : List Char) : Bool × Lexer :=
  if valid.isPrefixOf (l.buffer.drop l.pos) then
    (true, { l with pos := l.pos + valid.length })
  else
    (false, l)

/-- isAlphaNumeric of lexer.go, on the ASCII fragment: underscore, letter or
digit. -/
def isAlphaNumericGo (c : Char) : Bool :=
  c = '_' || c.isAlpha || c.isDigit

/-- Option-level isAlphaNumeric: Go's `isAlphaNumeric(eof)` is false. -/
def isAlphaNumericOpt : Option Char → Bool
  | some c => isAlphaNumericGo c
  | none => false

/-- unicode.IsSpace on the characters Go recognises up to Latin-1. -/
def isSpaceGo (c : Char) : Bool :=
  c = ' ' || c = '\t' || c = '\n' || c = '\x0b' || c = '\x0c' || c = '\r' ||
    c = '\u0085' || c = ' '

/-- acceptNumber of lexer.go, a direct translation of the scanner taken from
Go's template lexer: optional sign, radix prefixes, digit runs, fraction,
exponent, trailing `i`, then a reset to `start` when an identifier character
follows. -/
def Lexer.acceptNumber (l : Lexer) : Bool × Lexer :=
  let (_, l) := l.accept ['+', '-']
  let digits0 := "0123456789_".data
  let (isZero, l) := l.accept ['0']
  let (digits, l) :=
    if isZero then
      let (isHex, l) := l.accept ['x', 'X']
      if isHex then ("0123456789abcdefABCDEF_".data, l)
      else
        let (isOct, l) := l.accept ['o', 'O']
        if isOct then ("01234567_".data, l)
        else
          let (isBin, l) := l.accept ['b', 'B']
          if isBin then ("01_".data, l) else (digits0, l)
    else (digits0, l)
  let (_, l) := l.acceptRun digits
  if l.pos = l.start then
    (false, l)
  else
    let (isDot, l) := l.accept ['.']
    let (_, l) := if isDot then l.acceptRun digits else (false, l)
    let l :=
      if digits.length = 10 + 1 then
        let (isExp, l) := l.accept ['e', 'E']
        if isExp then
          let (_, l) := l.accept ['+', '-']
          (l.acceptRun "0123456789_".data).2
        else l
      else l
    let l :=
      if digits.length = 16 + 6 + 1 then
        let (isExp, l) := l.accept ['p', 'P']
        if isExp then
          let (_, l) := l.accept ['+', '-']
          (l.acceptRun "0123456789_".data).2
        else l
      else l
    let (_, l) := l.accept ['i']
    if isAlphaNumericOpt l.peakr then
      (false, { l with pos := l.start })
    else
      (l.pos != l.start, l)

/-- Loop of acceptString of lexer.go: a closing quote of the active kind ends
the string, end-of-input is an unterminated-string error (`%.10q` is
modelled by quoting the next ten characters verbatim, enough for the ASCII
inputs considered), anything else is consumed. `gas` is one more than the
number of unscanned characters, so the `0` case is unreachable from the
wrapper. -/
def Lexer.acceptStringGas (isSingleQuote isDoubleQuote : Bool) :
    Nat → Lexer → Bool × Option String × Lexer
  | 0, l => (false, none, l)
  | gas + 1, l =>
      let a1 := if isSingleQuote then l.accept ['\''] else (false, l)
      if a1.1 then
        (true, none, a1.2)
      else
        let a2 := if isDoubleQuote then a1.2.accept ['"'] else (false, a1.2)
        if a2.1 then
          (true, none, a2.2)
        else
          match a2.2.nextr with
          | (none, l3) =>
              (false, some ("string not closed. char " ++ toString l3.pos ++ " near \"" ++
                String.mk ((l3.buffer.drop l3.pos).take 10) ++ "...\""), l3)
          | (some _, l3) => Lexer.acceptStringGas isSingleQuote isDoubleQuote gas l3

/-- acceptString of lexer.go: dispatch on the opening quote. -/
def Lexer.acceptString (l : Lexer) : Bool × Option String × Lexer :=
  let (isSingleQuote, l) := l.accept ['\'']
  if isSingleQuote then
    Lexer.acceptStringGas true false (l.len - l.pos + 1) l
  else
    let (isDoubleQuote, l) := l.accept ['"']
    if isDoubleQuote then
      Lexer.acceptStringGas false true (l.len - l.pos + 1) l
    else
      (false, none, l)

/-- Loop of acceptSpace of lexer.go: consume characters until a non-space,
backing up over the offending character unless it was end-of-input. `gas` is
one more than the number of unscanned characters. -/
def Lexer.acceptSpaceGas : Nat → Lexer → Lexer
  | 0, l => l
  | gas + 1, l =>
      match l.nextr with
      | (none, l1) => l1
      | (some c, l1) => if isSpaceGo c then Lexer.acceptSpaceGas gas l1 else l1.backupr

/-- acceptSpace of lexer.go. -/
def Lexer.acceptSpace (l : Lexer) : Bool × Lexer :=
  let l1 := Lexer.acceptSpaceGas (l.len - l.pos + 1) l
  (l1.start != l1.pos, l1)

/-- Loop of acceptFunction of lexer.go: consume alphanumeric/underscore
characters. `gas` is one more than the number of unscanned characters. -/
def Lexer.acceptFunctionGas : Nat → Lexer → Lexer
  | 0, l => l
  | gas + 1, l =>
      match l.nextr with
      | (none, l1) => l1
      | (some c, l1) => if isAlphaNumericGo c then Lexer.acceptFunctionGas gas l1 else l1.backupr

/-- acceptFunction of lexer.go. -/
def Lexer.acceptFunction (l : Lexer) : Bool × Lexer :=
  let l1 := Lexer.acceptFunctionGas (l.len - l.pos + 1) l
  (l1.start != l1.pos, l1)

/-- emit of lexer.go: a token of the given kind spanning `buffer[start:pos]`. -/
def Lexer.emit (l : Lexer) (t : TokenType) : Token × Lexer :=
  ({ typ := t, val := String.mk ((l.buffer.drop l.start).take (l.pos - l.start)) }, l)

/-- emitError of lexer.go: an error token carrying the message. -/
def Lexer.emitError (l : Lexer) (err : String) : Token × Lexer :=
  ({ typ := .typeError, val := err }, l)

/-- Next of lexer.go: set `start`, then try each recogniser in the source's
order, first match wins. -/
def Lexer.Next (l : Lexer) : Token × Lexer :=
  let l := { l with start := l.pos }
  if ¬ l.hasNext then
    if l.parenStack > 0 then
      l.emitError ("missing " ++ toString l.parenStack ++ " closed parenthasis at EOF")
    else
      l.emit .typeEOF
  else
    let (isAnd, l) := l.acceptPrefix ['&']
    if isAnd then l.emit .typeAnd
    else
      let (isOr, l) := l.acceptPrefix ['|']
      if isOr then l.emit .typeOr
      else
        let (isColon, l) := l.acceptPrefix [':']
        if isColon then l.emit .typeColon
        else
          let (isComma, l) := l.acceptPrefix [',']
          if isComma then l.emit .typeComma
          else
            let (isOpenParen, l) := l.acceptPrefix ['(']
            if isOpenParen then
              let l := { l with parenStack := l.parenStack + 1 }
              l.emit .typeOpenParen
            else
              let (isClosedParen, l) := l.acceptPrefix [')']
              if isClosedParen then
                if l.parenStack = 0 then
                  l.emitError ("closed paren with no open paren at char " ++
                    toString l.pos ++ " near \"" ++
                    String.mk ((l.buffer.drop l.pos).take 10) ++ "...\"")
                else
                  let l := { l with parenStack := l.parenStack - 1 }
                  l.emit .typeCloseParen
              else
                let (isTrueLit, l) := l.acceptPrefix "true".data
                let (isBool, l) :=
                  if isTrueLit then (true, l)
                  else l.acceptPrefix "false".data
                if isBool then l.emit .typeBool
                else
                  let (isString, strErr, l) := l.acceptString
                  if isString then l.emit .typeString
                  else if h : strErr.isSome then l.emitError (strErr.get h)
                  else
                    let (isNumber, l) := l.acceptNumber
                    if isNumber then l.emit .typeNumber
                    else
                      let (isWhiteSpace, l) := l.acceptSpace
                      if isWhiteSpace then l.emit .typeSpace
                      else
                        let (isFunction, l) := l.acceptFunction
                        if isFunction then l.emit .typeFunction
                        else
                          l.emitError ("error at char " ++ toString l.pos ++ " near \"" ++
                            String.mk ((l.buffer.drop l.pos).take 10) ++ "...\"")

/-- Backup (token level) of lexer.go: restore the paren count for a rewound
paren token and reset `pos` to `start`. -/
def Lexer.Backup (l : Lexer) : Lexer :=
  let l :=
    if l.pos > l.len then l
    else
      let last := (l.buffer.drop l.start).take (l.pos - l.start)
      if last = ['('] then { l with parenStack := l.parenStack - 1 }
      else if last = [')'] then { l with parenStack := l.parenStack + 1 }
      else l
  { l with pos := l.start }

/-- Repeatedly calling Next, collecting tokens until end-of-input or an error
token (the shape of the `lex` helper and of TestLexer's loop); `fuel` bounds
the number of pulls. -/
def lexTokens : Nat → Lexer → List Token
  | 0, _ => []
  | fuel + 1, l =>
      let (t, l1) := l.Next
      if t.typ = .typeEOF ∨ t.typ = .typeError then [t]
      else t :: lexTokens fuel l1

/-- A `*node` pointer of parse.go: either the nil pointer or a node struct.
`rule` is the resolved rule function (a nilable Go function value, hence an
`Option`), `params` the raw parameter texts, `typ`/`value` the `Type` and
`Value` fields, and `a`/`b` the operand pointers `A` and `B`. The embedding
is polymorphic in the rule payload `ρ` so that parser facts can be stated
with a decidable payload. -/
inductive Node (ρ : Type) : Type where
  | nil : Node ρ
  | mk (rule : Option ρ) (params : List String) (typ : TokenType) (value : String)
      (a b : Node ρ) : Node ρ
deriving DecidableEq, Repr

/-- The Go test `current == nil` on a node pointer. -/
def Node.isNil {ρ : Type} : Node ρ → Bool
  | .nil => true
  | .mk .. => false

/-- Rule registry: the `map[string]Rule` with payload `ρ`, modelled as an
association list looked up by key. -/
def Rules (ρ : Type) : Type :=
  List (String × ρ)

/-- Go map indexing `rules[val]` with its `ok` flag. -/
def rulesLookup {ρ : Type} (rules : Rules ρ) (val : String) : Option ρ :=
  match rules with
  | [] => none
  | (k, r) :: rest => if k = val then some r else rulesLookup rest val

/-- Parameter-list loop of parseFunction (parse.go): each iteration pulls a
token and restarts on whitespace, then pulls the next token which must be a
boolean, number or string literal, then pulls once more and continues only
on a comma. This is the source's loop verbatim, including its unconditional
second `l.Next()` that discards the token read first when it was not
whitespace. -/
def parseFunctionLoop (fuel : Nat) (l : Lexer) (params : List String) :
    Except String (List String × Lexer) :=
  match fuel with
  | 0 => .error "out of fuel"
  | fuel + 1 =>
      let (t, l) := l.Next
      if t.typ = .typeSpace then
        parseFunctionLoop fuel l params
      else
        let (t, l) := l.Next
        if t.typ = .typeBool ∨ t.typ = .typeNumber ∨ t.typ = .typeString then
          let params := params ++ [t.val]
          let (t2, l) := l.Next
          if t2.typ ≠ .typeComma then
            .ok (params, l)
          else
            parseFunctionLoop fuel l params
        else
          .error ("'" ++ t.val ++ "' is not a function parameter")

/-- parseFunction of parse.go: pull one token (discarded when it is not a
colon), optionally run the parameter loop followed by a token-level Backup,
then resolve the rule name into a function leaf. -/
def parseFunction {ρ : Type} (fuel : Nat) (l : Lexer) (val : String) (rules : Rules ρ) :
    Except String (Node ρ × Lexer) :=
  let (t, l) := l.Next
  let paramsResult : Except String (List String × Lexer) :=
    if t.typ = .typeColon then
      match parseFunctionLoop fuel l [] with
      | .error e => .error e
      | .ok (params, l) => .ok (params, l.Backup)
    else
      .ok ([], l)
  match paramsResult with
  | .error e => .error e
  | .ok (params, l) =>
      match rulesLookup rules val with
      | none => .error ("'" ++ val ++ "' is not a valid rule")
      | some r => .ok (.mk (some r) params .typeFunction val .nil .nil, l)

/-- parseBools of parse.go: the parser's state machine, one recursive call
per loop iteration or parenthesised sub-expression, `current` the partial
tree (`.nil` when absent). -/
def parseBools {ρ : Type} (rules : Rules ρ) :
    Nat → Lexer → Node ρ → Except String (Node ρ × Lexer)
  | 0, _, _ => .error "out of fuel"
  | fuel + 1, l, current =>
      let (t, l) := l.Next
      match t.typ with
      | .typeEOF | .typeCloseParen =>
          let hasDangelingOperator : Bool :=
            match current with
            | .nil => false
            | .mk _ _ tc _ _ b => (tc == .typeAnd || tc == .typeOr) && b.isNil
          if hasDangelingOperator then
            .error ("bad '|' at " ++ toString l.start)
          else
            .ok (current, l)
      | .typeSpace => parseBools rules fuel l current
      | .typeError => .error t.val
      | .typeColon | .typeComma =>
          .error ("bad '" ++ t.val ++ "' at " ++ toString l.start)
      | .typeFunction =>
          let isOperator : Bool :=
            match current with
            | .nil => false
            | .mk _ _ tc _ _ _ => tc == .typeAnd || tc == .typeOr
          let hasBadFunctionSyntax := !current.isNil && !isOperator
          if hasBadFunctionSyntax then
            .error ("bad '" ++ t.val ++ "' at " ++ toString l.start)
          else
            match parseFunction fuel l t.val rules with
            | .error e => .error e
            | .ok (n, l) =>
                match current with
                | .nil => parseBools rules fuel l n
                | .mk r p tc v a b =>
                    if a.isNil then
                      parseBools rules fuel l (.mk r p tc v n b)
                    else if b.isNil then
                      parseBools rules fuel l (.mk r p tc v a n)
                    else
                      .error ("bad '" ++ t.val ++ "' at " ++ toString l.start)
      | .typeAnd | .typeOr =>
          let isOperator : Bool :=
            match current with
            | .nil => false
            | .mk _ _ tc _ _ _ => tc == .typeAnd || tc == .typeOr
          let isFull : Bool :=
            match current with
            | .nil => false
            | .mk _ _ _ _ a b => !a.isNil && !b.isNil
          let hasBadOperatorSyntax := isOperator && !isFull
          if hasBadOperatorSyntax then
            .error ("bad '" ++ t.val ++ "' at " ++ toString l.start)
          else
            parseBools rules fuel l (.mk none [] t.typ "" current .nil)
      | .typeOpenParen =>
          let hasMissingOperator : Bool :=
            match current with
            | .nil => false
            | .mk _ _ tc _ _ _ => !(tc == .typeAnd || tc == .typeOr)
          if hasMissingOperator then
            .error ("bad '" ++ t.val ++ "' at " ++ toString l.start)
          else
            match parseBools rules fuel l .nil with
            | .error e => .error e
            | .ok (n, l) =>
                match current with
                | .nil => parseBools rules fuel l n
                | .mk r p tc v a b =>
                    if !a.isNil && b.isNil then
                      parseBools rules fuel l (.mk r p tc v a n)
                    else
                      .error ("bad '(' at " ++ toString l.start)
      | .typeBool | .typeNumber | .typeString =>
          .error ("bad '" ++ t.val ++ "' at " ++ toString l.start)

/-- parse of parse.go: run parseBools on a fresh lexer. The fuel is generous:
every continuing parser step consumes at least one input character and each
nesting level returns at most once. -/
def parse {ρ : Type} (validator : String) (rules : Rules ρ) :
    Except String (Node ρ) :=
  match parseBools rules (2 * validator.length + 8) (newLexer validator) .nil with
  | .error e => .error e
  | .ok (n, _) => .ok n

/-- Go runtime's message for a nil dereference or a call of a nil function. -/
def nilDerefMsg : String :=
  "runtime error: invalid memory address or nil pointer dereference"

/-- Outcome of calling a Go function returning `error`: `ok` is a nil error,
`fail` a non-nil error carrying its message, and `panicked` an unwinding
panic carrying the panic value's message. -/
inductive Outcome where
  | ok
  | fail (msg : String)
  | panicked (msg : String)
deriving DecidableEq, Repr

/-- Metadata of one struct field: its Go name and its `json`/`validate` tag
values when present (the value of the configured validation tag). -/
structure FieldMeta where
  name : String
  jsonTag : Option String
  validateTag : Option String
deriving DecidableEq, Repr

/-- Values readable through `reflect.Value` in the fragment the rules use:
strings, signed and unsigned integers, booleans, nilable slices, nilable
pointers and structs. (Maps, channels, funcs, interfaces and floats are not
exercised by the claims and are omitted from the value model.) -/
inductive RValue where
  | strV (s : String)
  | intV (i : Int)
  | uintV (n : Nat)
  | boolV (b : Bool)
  | sliceV (elems : Option (List RValue))
  | ptrV (v : Option RValue)
  | structV (fields : List (FieldMeta × RValue))
deriving Repr

/-- RuleParams of rules.go: the execution context handed to a rule function.
The locale tag is omitted (messages are modelled in English); `world` is an
abstract component standing for everything else a rule can observe or mutate
through the shared pointer, so that non-evaluation of a subtree is
observable. -/
structure RuleParams (σ : Type) where
  fieldName : String
  params : List String
  field : RValue
  parent : RValue
  root : RValue
  world : σ

/-- Rule of rules.go: `func(*RuleParams) error`, modelled as a state
transformer on the context (the pointer's mutable contents) returning the
call's outcome. -/
def GoRule (σ : Type) : Type :=
  RuleParams σ → RuleParams σ × Outcome

/-- node.execute of parse.go: a function leaf installs its parameters into
the context and calls its rule; an And/Or node evaluates `A`, then evaluates
`B` exactly when `(err == nil && And) || (err != nil && Or)`, and otherwise
returns `A`'s result. Executing the nil node or calling a nil rule is the Go
runtime panic, and a panic in `A` unwinds without touching `B`. -/
def execute {σ : Type} : Node (GoRule σ) → RuleParams σ → RuleParams σ × Outcome
  | .nil, ps => (ps, .panicked nilDerefMsg)
  | .mk rule params typ _value a b, ps =>
      if typ = .typeFunction then
        let ps := { ps with params := params }
        match rule with
        | none => (ps, .panicked nilDerefMsg)
        | some r => r ps
      else
        match execute a ps with
        | (ps1, .panicked m) => (ps1, .panicked m)
        | (ps1, res) =>
            if (res = .ok ∧ typ = .typeAnd) ∨ (res ≠ .ok ∧ typ = .typeOr) then
              execute b ps1
            else
              (ps1, res)

/-- Go error values of error.go in the shapes the engine produces: a
`*FieldError` (path and message), a `FieldErrors` list (the only shape
implementing the `Errors` interface), and a plain `errors.New`-style error. -/
inductive GoErr where
  | fieldError (path : String) (message : String)
  | fieldErrors (errs : List GoErr)
  | errString (msg : String)
deriving Repr

mutual

/-- FieldErrors.Add of error.go: the `for _, err := range errs` loop,
processing each added error in order with its loop body. -/
def FieldErrorsAdd (es : List GoErr) : List GoErr → List GoErr
  | [] => es
  | err :: rest => FieldErrorsAdd (FieldErrorsAddOne es err) rest

/-- The body of FieldErrors.Add for one error: when it implements the
`Errors` interface its sub-errors are added recursively, and then — with no
`else` in the source — the error itself is appended as well. -/
def FieldErrorsAddOne (es : List GoErr) : GoErr → List GoErr
  | .fieldErrors sub => FieldErrorsAdd es sub ++ [.fieldErrors sub]
  | err => es ++ [err]

end

mutual

/-- deepEqualZero: `reflect.DeepEqual(field.Interface(),
reflect.Zero(fieldType).Interface())` of rules.go's hasValue — the value
equals its type's zero value (zero of a slice or pointer type is nil). -/
def deepEqualZero : RValue → Bool
  | .strV s => s == ""
  | .intV i => i == 0
  | .uintV n => n == 0
  | .boolV b => b == false
  | .sliceV o => o.isNone
  | .ptrV o => o.isNone
  | .structV fields => deepEqualZeroFields fields

/-- deepEqualZero over the fields of a struct value. -/
def deepEqualZeroFields : List (FieldMeta × RValue) → Bool
  | [] => true
  | f :: rest => deepEqualZero f.2 && deepEqualZeroFields rest

end

/-- hasValue of rules.go: nilable kinds are non-nil; any other kind differs
from its type's zero value. -/
def hasValue (field : RValue) : Bool :=
  match field with
  | .sliceV o => o.isSome
  | .ptrV o => o.isSome
  | _ => !(deepEqualZero field)

/-- Required of rules.go: succeed exactly when the field has a value. -/
def Required {σ : Type} : GoRule σ := fun ps =>
  if hasValue ps.field then
    (ps, .ok)
  else
    (ps, .fail ("'" ++ ps.fieldName ++ "' is required"))

/-- Empty of rules.go: succeed exactly when the field has no value. -/
def Empty {σ : Type} : GoRule σ := fun ps =>
  if ¬ hasValue ps.field then
    (ps, .ok)
  else
    (ps, .fail ("'" ++ ps.fieldName ++ "' should position omitempty before other tags"))

/-- Field name resolution of validator.traverse (parse.go): the `json` tag's
first comma-separated piece when present, the Go field name otherwise. -/
def resolveFieldName (meta : FieldMeta) : String :=
  match meta.jsonTag with
  | some j => (j.splitOn ",").headD ""
  | none => meta.name

/-- Single pointer dereference of a field value as validator.traverse does it
(`fKind == reflect.Ptr && !fValue.IsNil()`): a nil pointer stays as it is. -/
def derefField : RValue → RValue
  | .ptrV (some v) => v
  | v => v

/-- The top-of-traverse pointer dereference: reflect panics when asking the
type of the zero Value a nil pointer's `Elem()` yields. -/
def derefTop : RValue → Except String RValue
  | .ptrV none => .error "reflect: call of reflect.Value.Type on zero Value"
  | .ptrV (some v) => .ok v
  | v => .ok v

/-- The slice/array loop of validator.traverse as a fold over the elements:
traverse each element in order (through `rec`), merging each non-empty
result into `errs` with FieldErrors.Add; a panic unwinds. -/
def foldElems (rec : RValue → Except String (List GoErr)) (errs0 : List GoErr)
    (elems : List RValue) : Except String (List GoErr) :=
  elems.foldl
    (fun acc v =>
      match acc with
      | .error m => .error m
      | .ok errs =>
          match rec v with
          | .error m => .error m
          | .ok es => .ok (if es.length > 0 then FieldErrorsAdd errs es else errs))
    (.ok errs0)

/-- One struct field of validator.traverse: dereference a non-nil pointer,
then — when the validation tag is present — build fresh RuleParams, parse the
tag's rule text (a parse error becomes a FieldError) and execute the tree (a
failure becomes a FieldError unless this is the syntax-check pass; a panic
unwinds); finally recurse (through `rec`) into struct, array and slice
fields. -/
def fieldStep {σ : Type} (rules : Rules (GoRule σ)) (isSyntaxCheck : Bool) (w : σ)
    (rec : RValue → Except String (List GoErr)) (iRoot iValue : RValue)
    (acc : Except String (List GoErr)) (f : FieldMeta × RValue) :
    Except String (List GoErr) :=
  match acc with
  | .error m => .error m
  | .ok errs =>
      let fValue := derefField f.2
      let afterTag : Except String (List GoErr) :=
        match f.1.validateTag with
        | none => .ok errs
        | some validator =>
            let fieldName := resolveFieldName f.1
            let ps : RuleParams σ :=
              { fieldName := fieldName, params := [], field := fValue,
                parent := iValue, root := iRoot, world := w }
            match parse validator rules with
            | .error e => .ok (FieldErrorsAdd errs [.fieldError "" e])
            | .ok tree =>
                match execute tree ps with
                | (_, .ok) => .ok errs
                | (_, .fail m) =>
                    if isSyntaxCheck then .ok errs
                    else .ok (FieldErrorsAdd errs [.fieldError "" m])
                | (_, .panicked m) => .error m
      match afterTag with
      | .error m => .error m
      | .ok errs =>
          match fValue with
          | .structV _ | .sliceV _ =>
              match rec fValue with
              | .error m => .error m
              | .ok es =>
                  .ok (if es.length > 0 then FieldErrorsAdd errs es else errs)
          | _ => .ok errs

/-- validator.traverse of parse.go: dereference a pointer, then walk a slice
element-wise and a struct field-wise, collecting field errors via
FieldErrors.Add; a panic (`.error`) unwinds the whole traversal. `fuel`
dominates the nesting depth of the value. -/
def traverse {σ : Type} (rules : Rules (GoRule σ)) (isSyntaxCheck : Bool) (w : σ) :
    Nat → RValue → RValue → Except String (List GoErr)
  | 0, _, _ => .error "out of fuel"
  | fuel + 1, iRoot, iValue0 =>
      match derefTop iValue0 with
      | .error m => .error m
      | .ok iValue =>
          match iValue with
          | .sliceV elems =>
              foldElems (fun v => traverse rules isSyntaxCheck w fuel iRoot v) []
                (elems.getD [])
          | .structV fields =>
              List.foldl
                (fieldStep rules isSyntaxCheck w
                  (fun v => traverse rules isSyntaxCheck w fuel iRoot v)
                  iRoot (.structV fields))
                (.ok []) fields
          | _ => .ok []

/-- validator.Validate of parse.go: traverse with `isSyntaxCheck = false`,
returning the collected FieldErrors as a non-nil error exactly when the list
is non-empty; a panic in a rule propagates out of Validate uncaught. -/
def Validate {σ : Type} (rules : Rules (GoRule σ)) (w : σ) (fuel : Nat) (i : RValue) :
    Except String (Option GoErr) :=
  match traverse rules false w fuel i i with
  | .error m => .error m
  | .ok errs => .ok (if errs.length > 0 then some (.fieldErrors errs) else none)

/-- validator.CheckSyntax of parse.go: run the traversal inside a goroutine
whose deferred recover turns any panic into `fmt.Errorf("%+v", err)`; the
normal path sends the traversal's FieldErrors over the channel, so the
returned error is never a propagated panic. -/
def CheckSyntax {σ : Type} (rules : Rules (GoRule σ)) (w : σ) (fuel : Nat) (i : RValue) :
    GoErr :=
  match traverse rules true w fuel i i with
  | .error m => .errString m
  | .ok errs => .fieldErrors errs

mutual

/-- The expansion FieldErrors.Add performs for one added error: an error
exposing sub-errors contributes its recursively expanded sub-errors followed
by the aggregate itself; any other error contributes just itself. -/
def addExpansion : GoErr → List GoErr
  | .fieldErrors sub => addExpansionList sub ++ [.fieldErrors sub]
  | e => [e]

/-- The expansion of a list of added errors, in order. -/
def addExpansionList : List GoErr → List GoErr
  | [] => []
  | e :: rest => addExpansion e ++ addExpansionList rest

end

/-- A field value (after the field-level pointer dereference) that the
traversal does not descend into: anything but a struct, array or slice. -/
def notTraversable : RValue → Bool
  | .structV _ => false
  | .sliceV _ => false
  | _ => true

/-- The FieldErrors one struct field contributes in validator.traverse's
field block, stated per field: no tag contributes nothing; a parse error
contributes its message; an execute failure contributes its message unless
this is the syntax-check pass; success contributes nothing; `none` when the
execution panics. -/
def fieldEntries {σ : Type} (rules : Rules (GoRule σ)) (isSyntaxCheck : Bool) (w : σ)
    (iRoot iValue : RValue) (f : FieldMeta × RValue) : Option (List GoErr) :=
  match f.1.validateTag with
  | none => some []
  | some validator =>
      let ps : RuleParams σ :=
        { fieldName := resolveFieldName f.1, params := [], field := derefField f.2,
          parent := iValue, root := iRoot, world := w }
      match parse validator rules with
      | .error e => some [.fieldError "" e]
      | .ok tree =>
          match execute tree ps with
          | (_, .ok) => some []
          | (_, .fail m) => some (if isSyntaxCheck then [] else [.fieldError "" m])
          | (_, .panicked _) => none

/-- The completeness property of C3: every And/Or node anywhere in the tree
has both operand pointers present. -/
def andOrComplete {ρ : Type} : Node ρ → Bool
  | .nil => true
  | .mk _ _ t _ a b =>
      (!(t == .typeAnd || t == .typeOr) || (!a.isNil && !b.isNil)) &&
      andOrComplete a && andOrComplete b

/-- The parser's invariant on finished trees, slightly stronger than
`andOrComplete`: additionally, on every node a present `B` operand implies a
present `A` operand (parseBools only ever fills `B` after `A`). -/
def wfNode {ρ : Type} : Node ρ → Bool
  | .nil => true
  | .mk _ _ t _ a b =>
      (!(t == .typeAnd || t == .typeOr) || (!a.isNil && !b.isNil)) &&
      (b.isNil || !a.isNil) &&
      wfNode a && wfNode b

/-- The invariant parseBools maintains on its partial tree `current`: both
operand subtrees satisfy `wfNode`, and `B` is only ever present when `A` is
(the root itself may still be awaiting its `B`). -/
def parserCurrentInv {ρ : Type} : Node ρ → Bool
  | .nil => true
  | .mk _ _ _ _ a b => wfNode a && wfNode b && (b.isNil || !a.isNil)

/-- C1: for every tree and every execution context, executing an And node
evaluates its left operand first and, when the left operand fails, returns
that failure with the context exactly as the left evaluation left it — the
right operand is never evaluated, as the result does not depend on `b` in
that case; when the left operand succeeds, the And returns the right
operand's outcome evaluated in the left's resulting context. Executing an Or
node returns success without evaluating the right operand when the left
succeeds, and otherwise returns the right operand's outcome, discarding the
left's failure. (A panic in the left operand unwinds in both cases.) -/
theorem execute_and_or_short_circuit {σ : Type} (rule : Option (GoRule σ))
    (params : List String) (value : String) (a b : Node (GoRule σ))
    (ps : RuleParams σ) :
    execute (.mk rule params .typeAnd value a b) ps =
      (match execute a ps with
       | (ps1, .ok) => execute b ps1
       | (ps1, r) => (ps1, r)) ∧
    execute (.mk rule params .typeOr value a b) ps =
      (match execute a ps with
       | (ps1, .fail _) => execute b ps1
       | (ps1, r) => (ps1, r)) := by
  constructor <;>
    · rw [execute]
      rcases execute a ps with ⟨ps1, res⟩
      cases res <;> simp

/-- C2: with `eq` registered, `"eq:1,2,3"` does not produce the parameter
list — parseFunction's parameter loop consumes two tokens per iteration, so
the comma lands where a literal is expected and parsing fails; `"eq:"` fails
as the claim says (though with the message of a missing parameter); and
`"eq:alpha"` also fails instead of accepting the bare word, both because the
loop discards the word token and because a function-name token is not among
the accepted literal kinds. -/
theorem parse_eq_parameter_lists :
    parse "eq:1,2,3" [("eq", ())] = .error "',' is not a function parameter" ∧
    parse "eq:" [("eq", ())] = .error "'' is not a function parameter" ∧
    parse "eq:alpha" [("eq", ())] = .error "'' is not a function parameter" :=
  ⟨rfl, rfl, rfl⟩

/-- C4: `"(t & f"` is rejected (the lexer errors at EOF while parentheses
are open, though the message reports the count of missing close parens and
`EOF`, not a numeric character position), and `"t &"` is rejected naming
position 3; but `"t)"` is NOT rejected: parseFunction's unconditional
lookahead `Next` swallows the lexer's close-paren error token, and parse
returns the tree for `t`. -/
theorem parse_unbalanced_dangling_trailing :
    parse "(t & f" [("t", ()), ("f", ())] = .error "missing 1 closed parenthasis at EOF" ∧
    parse "t &" [("t", ()), ("f", ())] = .error "bad '|' at 3" ∧
    parse "t)" [("t", ()), ("f", ())] =
      .ok (.mk (some ()) [] .typeFunction "t" .nil .nil) :=
  ⟨rfl, rfl, rfl⟩

/-- C5: the empty rule string parses to an absent (nil) tree with no error,
for every registry; but executing the absent tree is not a success — it
dereferences the nil node (`n.Type`) and panics, for every execution
context, so a field whose rule text is empty crashes Validate. -/
theorem parse_empty_then_execute_nil_panics {σ ρ : Type} (rules : Rules ρ)
    (ps : RuleParams σ) :
    parse "" rules = .ok .nil ∧
    execute .nil ps = (ps, .panicked nilDerefMsg) :=
  ⟨rfl, rfl⟩

/-- C6: tokenising `"func: 'a', 2 & x"` yields exactly
function("func"), colon, whitespace, string("'a'"), comma, whitespace,
number("2"), whitespace, and, whitespace, function("x"), end-of-input, and
the token texts concatenate back to the exact input, each being the slice it
spans. -/
theorem lexer_tokenises_func_call_stream :
    lexTokens 20 (newLexer "func: 'a', 2 & x") =
      [⟨.typeFunction, "func"⟩, ⟨.typeColon, ":"⟩, ⟨.typeSpace, " "⟩,
       ⟨.typeString, "'a'"⟩, ⟨.typeComma, ","⟩, ⟨.typeSpace, " "⟩,
       ⟨.typeNumber, "2"⟩, ⟨.typeSpace, " "⟩, ⟨.typeAnd, "&"⟩,
       ⟨.typeSpace, " "⟩, ⟨.typeFunction, "x"⟩, ⟨.typeEOF, ""⟩] ∧
    ((lexTokens 20 (newLexer "func: 'a', 2 & x")).map Token.val).foldl
        (fun acc v => acc ++ v) "" = "func: 'a', 2 & x" :=
  ⟨rfl, rfl⟩

/-- C10: Required and Empty are exact complements, both deciding by the same
hasValue test: Required succeeds precisely when the field holds a non-zero
(non-nil, non-default) value, Empty succeeds precisely when it does not, and
on no field value do both succeed or both fail. Neither rule mutates the
context. -/
theorem required_empty_exact_complements {σ : Type} (ps : RuleParams σ) :
    ((Required ps).2 = .ok ↔ hasValue ps.field = true) ∧
    ((Empty ps).2 = .ok ↔ hasValue ps.field = false) ∧
    (¬ ((Required ps).2 = .ok ∧ (Empty ps).2 = .ok)) ∧
    (¬ ((Required ps).2 ≠ .ok ∧ (Empty ps).2 ≠ .ok)) ∧
    (Required ps).1 = ps ∧ (Empty ps).1 = ps := by
  unfold Required Empty
  by_cases h : hasValue ps.field <;> simp [h]

/-- C9: CheckSyntax never propagates a panic: whatever the traversal does,
the returned value is an ordinary error value — a panic (`.error m`) is
recovered by the deferred handler and returned as the formatted message, and
a normal pass returns the collected FieldErrors; concretely, a rule that
panics while syntax-checking a tagged field comes back as the error value of
its panic message, while the same input makes Validate unwind. -/
theorem checkSyntax_returns_panics_as_errors {σ : Type} (rules : Rules (GoRule σ))
    (w : σ) (fuel : Nat) (i : RValue) :
    (∀ m, traverse rules true w fuel i i = .error m →
        CheckSyntax rules w fuel i = .errString m) ∧
    (∀ errs, traverse rules true w fuel i i = .ok errs →
        CheckSyntax rules w fuel i = .fieldErrors errs) ∧
    CheckSyntax [("boom", fun ps => (ps, Outcome.panicked "wrong type"))] () 5
        (.structV [({ name := "F", jsonTag := none, validateTag := some "boom" },
          .strV "")]) = .errString "wrong type" ∧
    Validate [("boom", fun ps => (ps, Outcome.panicked "wrong type"))] () 5
        (.structV [({ name := "F", jsonTag := none, validateTag := some "boom" },
          .strV "")]) = .error "wrong type" := by
  refine ⟨?_, ?_, rfl, rfl⟩ <;>
    · intro x hx
      unfold CheckSyntax
      rw [hx]

/-- Joint helper for FieldErrors.Add: adding a list appends its ordered
expansion to the receiver, and the loop body for one error appends that
error's expansion; proved by strong induction on the size of the added
errors. -/
theorem fieldErrorsAdd_both (n : Nat) :
    (∀ errs : List GoErr, sizeOf errs ≤ n →
      ∀ es, FieldErrorsAdd es errs = es ++ addExpansionList errs) ∧
    (∀ err : GoErr, sizeOf err ≤ n →
      ∀ es, FieldErrorsAddOne es err = es ++ addExpansion err) := by
  induction n with
  | zero =>
      constructor
      · intro errs h
        cases errs <;> simp_all
      · intro err h
        cases err <;> simp_all
  | succ n ih =>
      constructor
      · intro errs h es
        match errs with
        | [] => simp [FieldErrorsAdd, addExpansionList]
        | err :: rest =>
            have hsz : sizeOf err ≤ n ∧ sizeOf rest ≤ n := by
              simp only [List.cons.sizeOf_spec] at h
              omega
            calc FieldErrorsAdd es (err :: rest)
                = FieldErrorsAdd (FieldErrorsAddOne es err) rest := by
                  rw [FieldErrorsAdd]
              _ = FieldErrorsAddOne es err ++ addExpansionList rest :=
                  ih.1 rest hsz.2 _
              _ = (es ++ addExpansion err) ++ addExpansionList rest := by
                  rw [ih.2 err hsz.1]
              _ = es ++ addExpansionList (err :: rest) := by
                  simp [addExpansionList, List.append_assoc]
      · intro err h es
        match err with
        | .fieldError p m => simp [FieldErrorsAddOne, addExpansion]
        | .errString m => simp [FieldErrorsAddOne, addExpansion]
        | .fieldErrors sub =>
            have hsz : sizeOf sub ≤ n := by
              simp only [GoErr.fieldErrors.sizeOf_spec] at h
              omega
            calc FieldErrorsAddOne es (.fieldErrors sub)
                = FieldErrorsAdd es sub ++ [.fieldErrors sub] := by
                  rw [FieldErrorsAddOne]
              _ = (es ++ addExpansionList sub) ++ [.fieldErrors sub] := by
                  rw [ih.1 sub hsz]
              _ = es ++ addExpansion (.fieldErrors sub) := by
                  simp [addExpansion, List.append_assoc]

/-- C7 counterexample: adding a FieldErrors aggregate of two leaf errors to
an empty list yields the two flattened leaves FOLLOWED BY the aggregate
itself — the aggregate is an element of the result, and the result is not
the flattened leaf list alone, contrary to the claim. -/
theorem fieldErrorsAdd_keeps_nested_aggregate :
    FieldErrorsAdd [] [.fieldErrors [.errString "a", .errString "b"]] =
      [.errString "a", .errString "b",
        .fieldErrors [.errString "a", .errString "b"]] ∧
    GoErr.fieldErrors [.errString "a", .errString "b"] ∈
      FieldErrorsAdd [] [.fieldErrors [.errString "a", .errString "b"]] ∧
    FieldErrorsAdd [] [.fieldErrors [.errString "a", .errString "b"]] ≠
      [.errString "a", .errString "b"] := by
  have e : FieldErrorsAdd [] [.fieldErrors [.errString "a", .errString "b"]] =
      [.errString "a", .errString "b",
        .fieldErrors [.errString "a", .errString "b"]] := rfl
  refine ⟨e, ?_, ?_⟩
  · rw [e]
    exact .tail _ (.tail _ (.head _))
  · rw [e]
    intro hcontra
    simpa using congrArg List.length hcontra

/-- C7 amended: FieldErrors.Add appends, for each added error in order, its
flattened sub-errors (recursively, in order) FOLLOWED additionally by the
aggregate error itself; leaf errors contribute just themselves. -/
theorem fieldErrorsAdd_appends_expansion (es errs : List GoErr) :
    FieldErrorsAdd es errs = es ++ addExpansionList errs :=
  (fieldErrorsAdd_both (sizeOf errs)).1 errs (Nat.le_refl _) es

/-- Helper: adding a single plain FieldError is a plain append. -/
theorem fieldErrorsAdd_singleton (es : List GoErr) (p m : String) :
    FieldErrorsAdd es [.fieldError p m] = es ++ [.fieldError p m] := rfl

/-- Helper for C8: on one field that is not itself traversed and whose tag
evaluation does not panic, the field step of the struct loop appends exactly
that field's entries. -/
theorem fieldStep_flat {σ : Type} (rules : Rules (GoRule σ)) (isc : Bool) (w : σ)
    (rec : RValue → Except String (List GoErr)) (iRoot iValue : RValue)
    (errs : List GoErr) (f : FieldMeta × RValue)
    (hf : notTraversable (derefField f.2) = true)
    (ho : (fieldEntries rules isc w iRoot iValue f).isSome = true) :
    fieldStep rules isc w rec iRoot iValue (.ok errs) f =
      .ok (errs ++ (fieldEntries rules isc w iRoot iValue f).getD []) := by
  simp only [fieldStep, fieldEntries] at ho ⊢
  rcases htag : f.1.validateTag with - | validator <;> simp only [htag] at ho ⊢
  · cases hd : derefField f.2 <;> simp only [hd, notTraversable] at hf ⊢ <;> simp_all
  · rcases hp : parse validator rules with e | tree <;> simp only [hp] at ho ⊢
    · rw [fieldErrorsAdd_singleton]
      cases hd : derefField f.2 <;> simp only [hd, notTraversable] at hf ⊢ <;> simp_all
    · rcases hex : execute tree
        { fieldName := resolveFieldName f.1, params := [], field := derefField f.2,
          parent := iValue, root := iRoot, world := w } with ⟨psx, res⟩
      cases res <;> simp only [hex] at ho ⊢
      · cases hd : derefField f.2 <;> simp only [hd, notTraversable] at hf ⊢ <;> simp_all
      · by_cases hisc : isc = true <;>
          simp only [hisc, if_true, if_false, fieldErrorsAdd_singleton] <;>
          cases hd : derefField f.2 <;> simp only [hd, notTraversable] at hf ⊢ <;> simp_all
      · simp at ho

/-- Helper for C8: the struct-field fold collects, in field order, each
field's entries appended after the errors already accumulated. -/
theorem foldl_fieldStep_flat {σ : Type} (rules : Rules (GoRule σ)) (isc : Bool) (w : σ)
    (rec : RValue → Except String (List GoErr)) (iRoot iValue : RValue)
    (fs : List (FieldMeta × RValue)) :
    ∀ errs : List GoErr,
      (∀ f ∈ fs, notTraversable (derefField f.2) = true) →
      (∀ f ∈ fs, (fieldEntries rules isc w iRoot iValue f).isSome = true) →
      List.foldl (fieldStep rules isc w rec iRoot iValue) (.ok errs) fs =
        .ok (errs ++ fs.flatMap fun f =>
          (fieldEntries rules isc w iRoot iValue f).getD []) := by
  induction fs with
  | nil => intro errs _ _; simp
  | cons f rest ih =>
      intro errs hflat hok
      rw [List.foldl_cons,
        fieldStep_flat rules isc w rec iRoot iValue errs f
          (hflat f (List.mem_cons_self f rest)) (hok f (List.mem_cons_self f rest)),
        ih _ (fun g hg => hflat g (List.mem_cons_of_mem f hg))
          (fun g hg => hok g (List.mem_cons_of_mem f hg))]
      simp [List.append_assoc]

/-- C8: one call of Validate on a (pointer to a) struct of flat fields, none
of whose rule evaluations panic, returns exactly the concatenation, in field
declaration order, of every field's failure entries — one entry per failing
field, not stopping at the first failure — wrapped as a FieldErrors error
when non-empty and nil otherwise. -/
theorem validate_reports_every_failing_field {σ : Type} (rules : Rules (GoRule σ))
    (w : σ) (fields : List (FieldMeta × RValue)) (fuel : Nat)
    (hflat : ∀ f ∈ fields, notTraversable (derefField f.2) = true)
    (hok : ∀ f ∈ fields, (fieldEntries rules false w (.ptrV (some (.structV fields)))
        (.structV fields) f).isSome = true) :
    Validate rules w (fuel + 1) (.ptrV (some (.structV fields))) =
      .ok (if 0 < (fields.flatMap fun f => (fieldEntries rules false w
              (.ptrV (some (.structV fields))) (.structV fields) f).getD []).length
        then some (.fieldErrors (fields.flatMap fun f => (fieldEntries rules false w
              (.ptrV (some (.structV fields))) (.structV fields) f).getD []))
        else none) := by
  unfold Validate
  have step : traverse rules false w (fuel + 1) (.ptrV (some (.structV fields)))
      (.ptrV (some (.structV fields))) =
      List.foldl
        (fieldStep rules false w
          (fun v => traverse rules false w fuel (.ptrV (some (.structV fields))) v)
          (.ptrV (some (.structV fields))) (.structV fields))
        (.ok []) fields := rfl
  rw [step, foldl_fieldStep_flat rules false w _ (.ptrV (some (.structV fields)))
    (.structV fields) fields [] hflat hok]
  simp

/-- Witness for C8: a struct of three fields all tagged with an
always-failing rule yields exactly three failure entries in declaration
order. -/
theorem validate_reports_every_failing_field_witness :
    Validate [("fail", fun ps => (ps, Outcome.fail "fail"))] () 1
        (.ptrV (some (.structV
          [({ name := "One", jsonTag := none, validateTag := some "fail" }, .strV ""),
           ({ name := "Two", jsonTag := none, validateTag := some "fail" }, .strV ""),
           ({ name := "Three", jsonTag := none, validateTag := some "fail" }, .strV "")]))) =
      .ok (some (.fieldErrors
        [.fieldError "" "fail", .fieldError "" "fail", .fieldError "" "fail"])) := by
  have h := validate_reports_every_failing_field
    [("fail", fun ps => (ps, Outcome.fail "fail"))] ()
    [({ name := "One", jsonTag := none, validateTag := some "fail" }, .strV ""),
     ({ name := "Two", jsonTag := none, validateTag := some "fail" }, .strV ""),
     ({ name := "Three", jsonTag := none, validateTag := some "fail" }, .strV "")]
    0 (by decide) (by decide)
  exact h.trans (by rfl)


/-- Helper for C3: a successful parseFunction always returns a function leaf
carrying the resolved rule, with both operand pointers nil. -/
theorem parseFunction_ok_shape {ρ : Type} {fuel : Nat} {l : Lexer} {val : String}
    {rules : Rules ρ} {n : Node ρ} {l' : Lexer}
    (h : parseFunction fuel l val rules = .ok (n, l')) :
    ∃ r params, n = .mk (some r) params .typeFunction val .nil .nil := by
  unfold parseFunction at h
  rcases hN : l.Next with ⟨t, l1⟩
  rw [hN] at h
  dsimp only at h
  split at h
  · simp at h
  · split at h
    · simp at h
    · next r hr =>
        simp only [Except.ok.injEq, Prod.mk.injEq] at h
        exact ⟨r, _, h.1.symm⟩


/-- Helper for C3: building a wf node from wf operands, the B-implies-A side
condition, and fullness whenever the node is an And/Or. -/
theorem wfNode_mk_of {ρ : Type} {r : Option ρ} {p : List String} {tc : TokenType}
    {v : String} {a b : Node ρ}
    (ha : wfNode a = true) (hb : wfNode b = true)
    (hba : (b.isNil || !a.isNil) = true)
    (hfull : (tc == .typeAnd || tc == .typeOr) = true → (!a.isNil && !b.isNil) = true) :
    wfNode (.mk r p tc v a b) = true := by
  simp only [wfNode, Bool.and_eq_true]
  refine ⟨⟨⟨?_, hba⟩, ha⟩, hb⟩
  by_cases hop : (tc == .typeAnd || tc == .typeOr) = true
  · simp [hop, hfull hop]
  · rw [Bool.not_eq_true] at hop
    simp [hop]

/-- Helper for C3: a finished wf tree satisfies the parser's `current`
invariant when it becomes the partial tree of an outer parse level. -/
theorem inv_of_wfNode {ρ : Type} (n : Node ρ) (h : wfNode n = true) :
    parserCurrentInv n = true := by
  cases n with
  | nil => rfl
  | mk r p tc v a b =>
      simp only [wfNode, Bool.and_eq_true] at h
      simp only [parserCurrentInv, Bool.and_eq_true]
      exact ⟨⟨h.1.2, h.2⟩, h.1.1.2⟩

/-- Helper for C3, the parser invariant: from any partial tree satisfying
`parserCurrentInv` (in particular from the empty tree), a successful
parseBools returns a tree in which every And/Or node has both operands and
`B` is only present alongside `A`; by induction on the fuel, following the
source's transition table case by case. -/
theorem parseBools_wf {ρ : Type} (rules : Rules ρ) :
    ∀ (fuel : Nat) (l : Lexer) (cur : Node ρ), parserCurrentInv cur = true →
      ∀ (res : Node ρ) (l' : Lexer), parseBools rules fuel l cur = .ok (res, l') →
        wfNode res = true := by
  intro fuel
  induction fuel with
  | zero =>
      intro l cur _ res l' hp
      simp [parseBools] at hp
  | succ n ih =>
      intro l cur hcur res l' hp
      simp only [parseBools] at hp
      rcases hN : l.Next with ⟨t, l1⟩
      rw [hN] at hp
      rcases t with ⟨ttyp, tval⟩
      dsimp only at hp
      cases ttyp <;> dsimp only at hp
      case typeError => simp at hp
      case typeColon => simp at hp
      case typeComma => simp at hp
      case typeBool => simp at hp
      case typeNumber => simp at hp
      case typeString => simp at hp
      case typeSpace => exact ih l1 cur hcur res l' hp
      case typeEOF =>
          split at hp
          · simp at hp
          · next hnd =>
              simp only [Except.ok.injEq, Prod.mk.injEq] at hp
              obtain ⟨h1, -⟩ := hp
              subst h1
              cases cur with
              | nil => rfl
              | mk r p tc v a b =>
                  simp only [parserCurrentInv, Bool.and_eq_true] at hcur
                  refine wfNode_mk_of hcur.1.1 hcur.1.2 hcur.2 (fun hop => ?_)
                  simp only [hop, Bool.true_and, Bool.not_eq_true] at hnd
                  have hax := hcur.2
                  rw [hnd, Bool.false_or] at hax
                  simp [hnd, hax]
      case typeCloseParen =>
          split at hp
          · simp at hp
          · next hnd =>
              simp only [Except.ok.injEq, Prod.mk.injEq] at hp
              obtain ⟨h1, -⟩ := hp
              subst h1
              cases cur with
              | nil => rfl
              | mk r p tc v a b =>
                  simp only [parserCurrentInv, Bool.and_eq_true] at hcur
                  refine wfNode_mk_of hcur.1.1 hcur.1.2 hcur.2 (fun hop => ?_)
                  simp only [hop, Bool.true_and, Bool.not_eq_true] at hnd
                  have hax := hcur.2
                  rw [hnd, Bool.false_or] at hax
                  simp [hnd, hax]
      case typeFunction =>
          split at hp
          · simp at hp
          · next hguard =>
              split at hp
              · simp at hp
              · next nfn l2 hpf =>
                  obtain ⟨r0, params0, hshape⟩ := parseFunction_ok_shape hpf
                  subst hshape
                  cases cur with
                  | nil =>
                      exact ih l2 (.mk (some r0) params0 .typeFunction tval .nil .nil)
                        rfl res l' hp
                  | mk rc pc tc vc a b =>
                      dsimp only at hp
                      simp only [parserCurrentInv, Bool.and_eq_true] at hcur
                      split at hp
                      · next hA =>
                          refine ih l2 _ ?_ res l' hp
                          simp only [parserCurrentInv, Bool.and_eq_true]
                          exact ⟨⟨rfl, hcur.1.2⟩, by simp [Node.isNil]⟩
                      · split at hp
                        · next hA hB =>
                            refine ih l2 _ ?_ res l' hp
                            simp only [parserCurrentInv, Bool.and_eq_true]
                            rw [Bool.not_eq_true] at hA
                            exact ⟨⟨hcur.1.1, rfl⟩, by rw [hA]; simp [Node.isNil]⟩
                        · simp at hp
      case typeAnd =>
          split at hp
          · simp at hp
          · next hguard =>
              refine ih l1 (.mk none [] .typeAnd "" cur .nil) ?_ res l' hp
              simp only [parserCurrentInv, Bool.and_eq_true]
              refine ⟨⟨?_, rfl⟩, by simp [Node.isNil]⟩
              cases cur with
              | nil => rfl
              | mk rc pc tc vc a b =>
                  simp only [parserCurrentInv, Bool.and_eq_true] at hcur
                  refine wfNode_mk_of hcur.1.1 hcur.1.2 hcur.2 (fun hop => ?_)
                  simpa [hop] using hguard
      case typeOr =>
          split at hp
          · simp at hp
          · next hguard =>
              refine ih l1 (.mk none [] .typeOr "" cur .nil) ?_ res l' hp
              simp only [parserCurrentInv, Bool.and_eq_true]
              refine ⟨⟨?_, rfl⟩, by simp [Node.isNil]⟩
              cases cur with
              | nil => rfl
              | mk rc pc tc vc a b =>
                  simp only [parserCurrentInv, Bool.and_eq_true] at hcur
                  refine wfNode_mk_of hcur.1.1 hcur.1.2 hcur.2 (fun hop => ?_)
                  simpa [hop] using hguard
      case typeOpenParen =>
          split at hp
          · simp at hp
          · next hguard =>
              split at hp
              · simp at hp
              · next nin l2 hpin =>
                  have hwfin : wfNode nin = true := ih l1 .nil rfl nin l2 hpin
                  cases cur with
                  | nil => exact ih l2 nin (inv_of_wfNode nin hwfin) res l' hp
                  | mk rc pc tc vc a b =>
                      dsimp only at hp
                      simp only [parserCurrentInv, Bool.and_eq_true] at hcur
                      split at hp
                      · next hab =>
                          refine ih l2 _ ?_ res l' hp
                          simp only [parserCurrentInv, Bool.and_eq_true]
                          simp only [Bool.and_eq_true] at hab
                          exact ⟨⟨hcur.1.1, hwfin⟩, by simp [hab.1]⟩
                      · simp at hp

/-- Helper for C3: the parser invariant implies the claim's completeness
property. -/
theorem wfNode_andOrComplete {ρ : Type} (n : Node ρ) (h : wfNode n = true) :
    andOrComplete n = true := by
  induction n with
  | nil => rfl
  | mk r p tc v a b iha ihb =>
      simp only [wfNode, Bool.and_eq_true] at h
      simp only [andOrComplete, Bool.and_eq_true]
      exact ⟨⟨h.1.1.1, iha h.1.2⟩, ihb h.2⟩

/-- C3: for every rule string and every registry, a tree returned by parse
without an error has both operands present on every And and Or node anywhere
in it (including inside parenthesised subtrees); inputs that would produce a
node with a missing operand are rejected, as parse either errors or returns
such a complete tree. -/
theorem parse_trees_have_both_operands {ρ : Type} (s : String) (rules : Rules ρ)
    (t : Node ρ) (h : parse s rules = .ok t) : andOrComplete t = true := by
  unfold parse at h
  rcases hp : parseBools rules (2 * s.length + 8) (newLexer s) .nil with _e | ⟨res, l2⟩ <;>
    rw [hp] at h
  · simp at h
  · simp only [Except.ok.injEq] at h
    subst h
    exact wfNode_andOrComplete res (parseBools_wf rules _ (newLexer s) .nil rfl res l2 hp)

/-- Witness for C3: the tree parsed from `"t & (f | t)"` with rules `t`,`f`
is And/Or complete. -/
theorem parse_trees_have_both_operands_witness :
    andOrComplete (Node.mk (none : Option Unit) [] .typeAnd ""
      (.mk (some ()) [] .typeFunction "t" .nil .nil)
      (.mk none [] .typeOr ""
        (.mk (some ()) [] .typeFunction "f" .nil .nil)
        (.mk (some ()) [] .typeFunction "t" .nil .nil))) = true :=
  parse_trees_have_both_operands "t & (f | t)" [("t", ()), ("f", ())] _ rfl

end Validator
